import Mathlib

/-!
Verification of a tool that scans a directory tree for git repositories and
reports the ones with unpushed local history.  The embedding below follows
the two Rust sources: `src/lib.rs` (the public `check_repo_status`) and
`src/main.rs` (the command-line entry point with a private copy of
`check_repo_status`, the directory walker, and the per-repository dispatch).
-/

/-- The three-valued repository status (`enum RepoStatus` in both
`lib.rs` and `main.rs`). -/
inductive RepoStatus where
  | Clean
  | HasUnpushed
  | MissingHead
deriving DecidableEq, Repr

/-- A libgit2-style error value: a numeric code plus a message.  git2
operations that can fail return `Except GitError _` in this embedding.
Code `-3` plays the role of libgit2's not-found code (the error
`Branch::upstream` reports when no upstream is configured). -/
structure GitError where
  code : Int
  message : String
deriving DecidableEq, Repr

/-- Commit identifiers (git OIDs), abstracted as naturals. -/
abbrev Oid := Nat

/-- The upstream (remote-tracking) reference of a branch: the target OID of
`upstream.get()`, `none` when the reference points at no commit. -/
structure UpstreamRef where
  target : Option Oid

/-- A local branch as `check_repo_status` observes it: the target OID of
`branch.get()` and the result of `branch.upstream()`, which returns an
error when no upstream is configured (or when any other git failure
occurs). -/
structure LocalBranch where
  target : Option Oid
  upstream : Except GitError UpstreamRef

/-- The resolved HEAD reference: whether it is a named branch
(`Reference::is_branch`) and its shorthand name (`Reference::shorthand`,
`none` when the name is not valid UTF-8). -/
structure HeadRef where
  isBranch : Bool
  shorthand : Option String

/-- A repository handle as the classifier observes it, the black-box git
capability interface: the result of `repo.head()`, of
`repo.find_branch(name, BranchType::Local)`, and of
`repo.graph_ahead_behind(local, upstream)`. -/
structure Repo where
  head : Except GitError HeadRef
  findBranch : String → Except GitError LocalBranch
  aheadBehind : Oid → Oid → Except GitError (Nat × Nat)

/-- Rust's `{:?}` (Debug) formatting of a `PathBuf`, modelled as quote
wrapping; `main.rs` uses it in the open-failure context message. -/
def rustDebugQuote (s : String) : String := "\"" ++ s ++ "\""

/-- The public classifier from `src/lib.rs` lines 16-72.  The first
argument is the repository path (used only in the open-failure message,
formatted with `Display`); the second is the result of
`Repository::open`.  Classification errors are returned as the `anyhow`
context string attached at the failing step. -/
def check_repo_status_lib (repoPath : String) (opened : Except GitError Repo) :
    Except String RepoStatus :=
  match opened with
  | .error _ => .error ("Failed to open repository at " ++ repoPath)
  | .ok repo =>
    match repo.head with
    | .error _ =>
      -- Failed to get HEAD (unborn or missing)
      .ok .MissingHead
    | .ok head =>
      if !head.isBranch then
        -- Not on a branch (detached HEAD), skip
        .ok .Clean
      else
        match head.shorthand with
        | none => .error "Failed to get branch name"
        | some branchName =>
          match repo.findBranch branchName with
          | .error _ => .error "Failed to find local branch"
          | .ok branch =>
            match branch.upstream with
            | .error _ =>
              -- No upstream branch configured, consider it as having
              -- unpushed changes if there are any commits
              .ok .HasUnpushed
            | .ok upstream =>
              match branch.target with
              | none => .error "Failed to get local branch target"
              | some localOid =>
                match upstream.target with
                | none => .error "Failed to get remote branch target"
                | some remoteOid =>
                  if localOid == remoteOid then
                    .ok .Clean
                  else
                    match repo.aheadBehind localOid remoteOid with
                    | .error _ => .error "Failed to calculate ahead/behind"
                    | .ok (ahead, _behind) =>
                      if ahead > 0 then .ok .HasUnpushed else .ok .Clean

/-- The private classifier copy from `src/main.rs` lines 136-198.  It is
textually identical to the library version except that the open-failure
context formats the path with `{:?}` (Debug) instead of `Display`. -/
def check_repo_status_main (repoPath : String) (opened : Except GitError Repo) :
    Except String RepoStatus :=
  match opened with
  | .error _ => .error ("Failed to open repository at " ++ rustDebugQuote repoPath)
  | .ok repo =>
    match repo.head with
    | .error _ =>
      -- Failed to get HEAD (unborn or missing)
      .ok .MissingHead
    | .ok head =>
      if !head.isBranch then
        -- Not on a branch (detached HEAD), skip
        .ok .Clean
      else
        match head.shorthand with
        | none => .error "Failed to get branch name"
        | some branchName =>
          match repo.findBranch branchName with
          | .error _ => .error "Failed to find local branch"
          | .ok branch =>
            match branch.upstream with
            | .error _ =>
              -- No upstream branch configured, consider it as having
              -- unpushed changes if there are any commits
              .ok .HasUnpushed
            | .ok upstream =>
              match branch.target with
              | none => .error "Failed to get local branch target"
              | some localOid =>
                match upstream.target with
                | none => .error "Failed to get remote branch target"
                | some remoteOid =>
                  if localOid == remoteOid then
                    .ok .Clean
                  else
                    match repo.aheadBehind localOid remoteOid with
                    | .error _ => .error "Failed to calculate ahead/behind"
                    | .ok (ahead, _behind) =>
                      if ahead > 0 then .ok .HasUnpushed else .ok .Clean

/-! The directory walker of `main.rs` lines 76-94: a `WalkDir` over the
scan root with `follow_links(false)`, a `filter_entry` predicate that
prunes hidden names other than `.git`, a filter keeping directory entries
named `.git`, and a `filter_map` to each such entry's parent path.

The file system is modelled as a finite tree.  An entry's `path` is its
component list relative to the scan root (`[]` for the root entry itself);
`name` is `walkdir`'s `file_name()`, which for the root entry is the last
component of the path the user passed (or that whole path when it has no
last component, e.g. `.`), and for every deeper entry is the entry's own
name. -/

/-- A directory entry as yielded by `walkdir`. -/
structure Entry where
  path : List String
  name : String
  isDir : Bool
deriving DecidableEq, Repr

/-- A file-system node: its name, whether it is a directory, and its
children (meaningful only for directories). -/
inductive FsTree where
  | node (name : String) (isDir : Bool) (children : List FsTree)
deriving Repr

/-- Name of a file-system node. -/
def FsTree.name : FsTree → String
  | .node n _ _ => n

/-- Directory flag of a file-system node. -/
def FsTree.isDir : FsTree → Bool
  | .node _ d _ => d

/-- Children of a file-system node. -/
def FsTree.children : FsTree → List FsTree
  | .node _ _ cs => cs

/-- Rust's `str::starts_with`, computed on the character lists. -/
def strStartsWith (s p : String) : Bool := p.data.isPrefixOf s.data

/-- The `filter_entry` predicate from `main.rs` lines 79-90: keep `.git`,
keep the names the code treats as the scan root (`.`, `..`, or starting
with `./` or `../`), and otherwise drop names starting with `.`. -/
def filterEntryPred (name : String) : Bool :=
  if name = ".git" then true
  else if name = "." || name = ".." || strStartsWith name "./" || strStartsWith name "../" then
    true
  else !(strStartsWith name ".")

mutual

/-- Entries yielded below one node: `walkdir`'s traversal with
`filter_entry` pruning.  A pruned node is neither yielded nor descended
into; a non-directory is yielded but never descended into. -/
def walkTree (pref : List String) : FsTree → List Entry
  | .node n d cs =>
    if filterEntryPred n then
      Entry.mk (pref ++ [n]) n d ::
        (if d then walkForest (pref ++ [n]) cs else [])
    else []
termination_by structural t => t

/-- Entries yielded below a list of sibling nodes, in order. -/
def walkForest (pref : List String) : List FsTree → List Entry
  | [] => []
  | c :: cs => walkTree pref c ++ walkForest pref cs
termination_by structural cs => cs

end

/-- The full walk: `filter_entry` applies to the root entry as well (this
is why `main.rs` special-cases the `.`/`..` names), so a pruned root
yields nothing at all.  `rootName` is `walkdir`'s `file_name()` of the
scan root. -/
def walkDir (rootName : String) (t : FsTree) : List Entry :=
  if filterEntryPred rootName then
    Entry.mk [] rootName t.isDir ::
      (if t.isDir then walkForest [] t.children else [])
  else []

/-- The repository filter from `main.rs` line 92:
`e.file_type().is_dir() && e.file_name() == ".git"`. -/
def gitDirP (e : Entry) : Bool := e.isDir && e.name == ".git"

/-- The parent map from `main.rs` line 93:
`e.path().parent().map(|p| p.to_path_buf())`.  The root entry's parent is
the scan root's parent, which lies outside the modelled tree; it is
modelled as `none`. -/
def gitParent (e : Entry) : Option (List String) :=
  if e.path.isEmpty then none else some e.path.dropLast

/-- The discovered-repository-path sequence (`all_entries` in `main.rs`
lines 76-94). -/
def discoveredPaths (rootName : String) (t : FsTree) : List (List String) :=
  ((walkDir rootName t).filter gitDirP).filterMap gitParent

/-- First child with the given name (a real directory has at most one). -/
def findChild (cs : List FsTree) (n : String) : Option FsTree :=
  cs.find? (fun c => c.name == n)

/-- Resolve a nonempty relative path below a list of sibling nodes,
descending only through directories. -/
def lookupF : List FsTree → List String → Option FsTree
  | _, [] => none
  | cs, n :: rest =>
    match findChild cs n with
    | none => none
    | some c =>
      match rest with
      | [] => some c
      | _ :: _ => if c.isDir then lookupF c.children rest else none

mutual

/-- Well-formedness of a file-system node: non-directories have no
children, and sibling names are distinct (as on a real file system). -/
def wfT : FsTree → Bool
  | .node _ d cs => (d || cs.isEmpty) && decide ((cs.map FsTree.name).Nodup) && wfF cs
termination_by structural t => t

/-- Well-formedness of every node in a list. -/
def wfF : List FsTree → Bool
  | [] => true
  | c :: cs => wfT c && wfF cs
termination_by structural cs => cs

end

/-- The long command-line option names accepted by the `Args` struct of
`main.rs` lines 17-40 (clap derive): there is no `exclude-from` option,
and no ignore-pattern file can be configured. -/
def argsLongOptions : List String := ["threads", "log-level", "verbose", "missing-head"]

/-! The per-repository dispatch of `main.rs` lines 97-133: every
discovered path is classified; `HasUnpushed` paths are printed in default
mode and `MissingHead` paths in `--missing-head` mode; every other
outcome only logs.  The `rayon` `par_iter` imposes no inter-repository
data flow, so the dispatch is modelled as an order-preserving map; the
claims proved about it are order-insensitive. -/

/-- One diagnostic record on the log stream. -/
inductive LogEvent where
  | foundRepo (path : String)
  | warnNoHead (path : String)
  | debugClean (path : String)
  | warnFailed (path : String) (err : String)
deriving DecidableEq, Repr

/-- The body of the `for_each` closure in `main.rs` lines 98-131: what one
repository contributes to standard output (`none` or one printed line)
and to the log stream. -/
def processRepo (missingHeadMode : Bool) (repoPath : String)
    (opened : Except GitError Repo) : Option String × List LogEvent :=
  match check_repo_status_main repoPath opened with
  | .ok .HasUnpushed =>
    (if !missingHeadMode then some repoPath else none, [.foundRepo repoPath])
  | .ok .MissingHead =>
    if missingHeadMode then (some repoPath, [.foundRepo repoPath])
    else (none, [.foundRepo repoPath, .warnNoHead repoPath])
  | .ok .Clean => (none, [.foundRepo repoPath, .debugClean repoPath])
  | .error e => (none, [.foundRepo repoPath, .warnFailed repoPath e])

/-- The scan phase of `main` after configuration succeeded: the printed
lines, the log events, and the process exit code.  `main` ends in
`Ok(())`, and the closure has no way to propagate an error, so the exit
code of a run that reaches scanning is the literal `0`. -/
def runScan (missingHeadMode : Bool)
    (repos : List (String × Except GitError Repo)) :
    List String × List LogEvent × Nat :=
  let results := repos.map (fun r => processRepo missingHeadMode r.1 r.2)
  (results.filterMap Prod.fst, ((results.map Prod.snd).flatten, 0))

/-! Concrete inputs used by the witness theorems. -/

/-- A branch two commits ahead of its upstream (targets differ). -/
def divergedBranch : LocalBranch :=
  { target := some 5, upstream := .ok { target := some 9 } }

/-- A repository on branch `main`, diverged from its upstream with
ahead-count 2 and behind-count 7. -/
def divergedRepo : Repo :=
  { head := .ok { isBranch := true, shorthand := some "main" }
    findBranch := fun _ => .ok divergedBranch
    aheadBehind := fun _ _ => .ok (2, 7) }

/-- A branch whose upstream resolution reports not-found (libgit2 code
`-3`): no upstream is configured. -/
def noUpstreamBranch : LocalBranch :=
  { target := some 5, upstream := .error ⟨-3, "no upstream configured"⟩ }

/-- A repository on branch `main` with no upstream configured. -/
def noUpstreamRepo : Repo :=
  { head := .ok { isBranch := true, shorthand := some "main" }
    findBranch := fun _ => .ok noUpstreamBranch
    aheadBehind := fun _ _ => .error ⟨0, "unused"⟩ }

/-- A branch whose upstream resolution fails with a generic (non
not-found) error. -/
def upstreamFailBranch : LocalBranch :=
  { target := some 5, upstream := .error ⟨-1, "generic upstream failure"⟩ }

/-- A repository on branch `dev` whose upstream resolution fails with a
generic error. -/
def upstreamFailRepo : Repo :=
  { head := .ok { isBranch := true, shorthand := some "dev" }
    findBranch := fun _ => .ok upstreamFailBranch
    aheadBehind := fun _ _ => .error ⟨0, "unused"⟩ }

/-- A repository whose HEAD does not resolve (zero commits). -/
def unbornRepo : Repo :=
  { head := .error ⟨-9, "reference not found"⟩
    findBranch := fun _ => .error ⟨0, "unused"⟩
    aheadBehind := fun _ _ => .error ⟨0, "unused"⟩ }

/-- A repository in detached-HEAD state. -/
def detachedRepo : Repo :=
  { head := .ok { isBranch := false, shorthand := some "HEAD" }
    findBranch := fun _ => .error ⟨0, "unused"⟩
    aheadBehind := fun _ _ => .error ⟨0, "unused"⟩ }

/-- The tree of the spec's scenario 6: `project/.git` and
`project/vendor/.git`, with the (unsuppliable) ignore file meant to
exclude `vendor/`. -/
def scenario6Tree : FsTree :=
  .node "root" true
    [.node "project" true
      [.node ".git" true [],
       .node "vendor" true [.node ".git" true []]]]

/-- A scan root whose own name starts with `.`, containing one ordinary
repository. -/
def dotRootTree : FsTree :=
  .node ".hidden" true [.node "project" true [.node ".git" true []]]

/-- A repository whose `.git` directory contains a subdirectory
`modules/x` that itself holds a directory named `.git` (as git creates
for submodules). -/
def nestedGitTree : FsTree :=
  .node "root" true
    [.node "project" true
      [.node ".git" true
        [.node "modules" true
          [.node "x" true [.node ".git" true []]]]]]

/-- A small well-formed tree with one repository, for the walker witness. -/
def witnessTree : FsTree :=
  .node "root" true
    [.node "project" true [.node ".git" true [.node "objects" true []]],
     .node ".cache" true [.node "stuff" true []]]

/-!  Theorems.  Each claim of the specification is settled by exactly one
theorem below (plus a witness when the theorem has hypotheses, and a
counterexample where the claim as stated fails). -/

/-! Structural lemmas about the walker. -/

/-- Unfolding equation for `walkTree` at a node. -/
theorem walkTree_node_eq (pref : List String) (n : String) (d : Bool) (cs : List FsTree) :
    walkTree pref (.node n d cs)
      = if filterEntryPred n then
          Entry.mk (pref ++ [n]) n d ::
            (if d then walkForest (pref ++ [n]) cs else [])
        else [] := by
  rw [walkTree]

/-- Unfolding equation for `walkForest` at the empty list. -/
@[simp] theorem walkForest_nil_eq (pref : List String) : walkForest pref [] = [] := by
  rw [walkForest]

/-- Unfolding equation for `walkForest` at a cons. -/
@[simp] theorem walkForest_cons_eq (pref : List String) (c : FsTree) (cs : List FsTree) :
    walkForest pref (c :: cs) = walkTree pref c ++ walkForest pref cs := by
  rw [walkForest]

/-- Unfolding equation for `wfT` at a node. -/
theorem wfT_node_eq (n : String) (d : Bool) (cs : List FsTree) :
    wfT (.node n d cs)
      = ((d || cs.isEmpty) && decide ((cs.map FsTree.name).Nodup) && wfF cs) := by
  rw [wfT]

/-- Unfolding equation for `wfF` at the empty list. -/
@[simp] theorem wfF_nil_eq : wfF [] = true := by
  rw [wfF]

/-- Unfolding equation for `wfF` at a cons. -/
@[simp] theorem wfF_cons_eq (c : FsTree) (cs : List FsTree) :
    wfF (c :: cs) = (wfT c && wfF cs) := by
  rw [wfF]

mutual

/-- Every entry yielded below a node extends the node's path. -/
theorem walkTree_path_shape (pref : List String) (t : FsTree) (e : Entry)
    (he : e ∈ walkTree pref t) : ∃ tail, e.path = pref ++ t.name :: tail := by
  cases t with
  | node n d cs =>
    rw [walkTree_node_eq] at he
    by_cases hf : filterEntryPred n = true
    · rw [if_pos hf] at he
      rcases List.mem_cons.mp he with heq | hmem
      · exact ⟨[], by simp [heq, FsTree.name]⟩
      · by_cases hd : d = true
        · rw [if_pos hd] at hmem
          obtain ⟨c, _, tail, hp⟩ := walkForest_path_shape (pref ++ [n]) cs e hmem
          exact ⟨c.name :: tail, by simp [hp, FsTree.name]⟩
        · simp [hd] at hmem
    · rw [if_neg hf] at he
      cases he
termination_by structural t

/-- Every entry yielded below a list of siblings extends the path of one
of the siblings. -/
theorem walkForest_path_shape (pref : List String) (cs : List FsTree) (e : Entry)
    (he : e ∈ walkForest pref cs) :
    ∃ c, c ∈ cs ∧ ∃ tail, e.path = pref ++ c.name :: tail := by
  cases cs with
  | nil => simp at he
  | cons c cs =>
    rw [walkForest_cons_eq] at he
    rcases List.mem_append.mp he with h | h
    · obtain ⟨tail, hp⟩ := walkTree_path_shape pref c e h
      exact ⟨c, List.mem_cons_self c cs, tail, hp⟩
    · obtain ⟨c', hc', tail, hp⟩ := walkForest_path_shape pref cs e h
      exact ⟨c', List.mem_cons_of_mem c hc', tail, hp⟩
termination_by structural cs

end

mutual

/-- The last path component of every yielded entry is the entry's name. -/
theorem walkTree_path_last (pref : List String) (t : FsTree) (e : Entry)
    (he : e ∈ walkTree pref t) : e.path.getLast? = some e.name := by
  cases t with
  | node n d cs =>
    rw [walkTree_node_eq] at he
    by_cases hf : filterEntryPred n = true
    · rw [if_pos hf] at he
      rcases List.mem_cons.mp he with heq | hmem
      · simp [heq]
      · by_cases hd : d = true
        · rw [if_pos hd] at hmem
          exact walkForest_path_last (pref ++ [n]) cs e hmem
        · simp [hd] at hmem
    · rw [if_neg hf] at he
      cases he
termination_by structural t

/-- The last path component of every entry yielded below a sibling list is
the entry's name. -/
theorem walkForest_path_last (pref : List String) (cs : List FsTree) (e : Entry)
    (he : e ∈ walkForest pref cs) : e.path.getLast? = some e.name := by
  cases cs with
  | nil => simp at he
  | cons c cs =>
    rw [walkForest_cons_eq] at he
    rcases List.mem_append.mp he with h | h
    · exact walkTree_path_last pref c e h
    · exact walkForest_path_last pref cs e h
termination_by structural cs

end

/-- Membership below a sibling list is membership below one sibling. -/
theorem mem_walkForest (pref : List String) (cs : List FsTree) (e : Entry) :
    e ∈ walkForest pref cs ↔ ∃ c, c ∈ cs ∧ e ∈ walkTree pref c := by
  induction cs with
  | nil => simp
  | cons c cs ih =>
    simp only [walkForest_cons_eq, List.mem_append, ih, List.mem_cons]
    constructor
    · rintro (h | ⟨c', hc', h⟩)
      · exact ⟨c, Or.inl rfl, h⟩
      · exact ⟨c', Or.inr hc', h⟩
    · rintro ⟨c', hc' | hc', h⟩
      · exact Or.inl (hc' ▸ h)
      · exact Or.inr ⟨c', hc', h⟩

/-- Inversion of node well-formedness. -/
theorem wfT_node_iff (n : String) (d : Bool) (cs : List FsTree) :
    wfT (.node n d cs) = true ↔
      ((d || cs.isEmpty) = true ∧ (cs.map FsTree.name).Nodup ∧ wfF cs = true) := by
  rw [wfT_node_eq]
  simp [Bool.and_eq_true, and_assoc]

/-- Every member of a well-formed sibling list is well-formed. -/
theorem wfF_mem {cs : List FsTree} {c : FsTree} (hw : wfF cs = true) (hc : c ∈ cs) :
    wfT c = true := by
  induction cs with
  | nil => cases hc
  | cons c0 cs ih =>
    rw [wfF_cons_eq] at hw
    simp only [Bool.and_eq_true] at hw
    rcases List.mem_cons.mp hc with rfl | hmem
    · exact hw.1
    · exact ih hw.2 hmem

/-- What a successful `findChild` returns: a member with the wanted name. -/
theorem findChild_some (cs : List FsTree) (n : String) (c : FsTree)
    (h : findChild cs n = some c) : c ∈ cs ∧ c.name = n := by
  refine ⟨List.mem_of_find?_eq_some h, ?_⟩
  have := List.find?_some h
  simpa using this

/-- With distinct sibling names, `findChild` finds exactly the member with
the wanted name. -/
theorem findChild_eq_of_mem (cs : List FsTree) (c : FsTree)
    (hn : (cs.map FsTree.name).Nodup) (hc : c ∈ cs) : findChild cs c.name = some c := by
  induction cs with
  | nil => cases hc
  | cons c0 cs ih =>
    rw [List.map_cons, List.nodup_cons] at hn
    rcases List.mem_cons.mp hc with rfl | hmem
    · simp [findChild]
    · have hne : (c0.name == c.name) = false := by
        simp only [beq_eq_false_iff_ne, ne_eq]
        intro heq
        exact hn.1 (heq ▸ List.mem_map_of_mem FsTree.name hmem)
      have := ih hn.2 hmem
      simpa [findChild, List.find?_cons, hne] using this

/-- A one-component lookup is a `findChild`. -/
theorem lookupF_singleton (cs : List FsTree) (x : String) :
    lookupF cs [x] = findChild cs x := by
  simp only [lookupF]
  cases findChild cs x <;> rfl

/-- Membership characterization of the filtered walk below a well-formed
sibling list: an entry with path `pref ++ p` is yielded exactly when `p`
resolves in the tree, every component of `p` passes the `filter_entry`
predicate, and the entry carries the resolved node's name and kind. -/
theorem mem_walkForest_iff_lookup (p : List String) :
    ∀ (cs : List FsTree) (pref : List String) (nm : String) (d : Bool),
      wfF cs = true → (cs.map FsTree.name).Nodup →
      (Entry.mk (pref ++ p) nm d ∈ walkForest pref cs ↔
        (p ≠ [] ∧ p.all filterEntryPred = true ∧
          ∃ u, lookupF cs p = some u ∧ u.name = nm ∧ u.isDir = d)) := by
  induction p with
  | nil =>
    intro cs pref nm d _ _
    constructor
    · intro he
      exfalso
      obtain ⟨c, -, tail, hp⟩ := walkForest_path_shape pref cs _ he
      simp only [List.append_nil] at hp
      have hlen := congrArg List.length hp
      simp [List.length_append] at hlen
    · rintro ⟨hne, -, -⟩
      exact absurd rfl hne
  | cons n rest ih =>
    intro cs pref nm d hw hn
    constructor
    · intro he
      rcases (mem_walkForest pref cs _).mp he with ⟨c, hc, htc⟩
      have hcw : wfT c = true := wfF_mem hw hc
      cases c with
      | node n' d' cc =>
        rw [walkTree_node_eq] at htc
        by_cases hf : filterEntryPred n' = true
        case neg => rw [if_neg hf] at htc; cases htc
        rw [if_pos hf] at htc
        rcases List.mem_cons.mp htc with heq | hmem
        · -- the entry is the head entry of the subtree at `c`
          have hpath : pref ++ n :: rest = pref ++ [n'] := congrArg Entry.path heq
          have h2 := List.append_cancel_left hpath
          injection h2 with h2a h2b
          subst h2b
          have hnm : nm = n' := congrArg Entry.name heq
          have hdir : d = d' := congrArg Entry.isDir heq
          have hfc : findChild cs n = some (FsTree.node n' d' cc) := by
            rw [h2a]
            have := findChild_eq_of_mem cs (FsTree.node n' d' cc) hn hc
            simpa [FsTree.name] using this
          refine ⟨by simp, by simp [h2a, hf], FsTree.node n' d' cc, ?_, ?_, ?_⟩
          · rw [lookupF_singleton, hfc]
          · simp [FsTree.name, hnm]
          · simp [FsTree.isDir, hdir]
        · -- the entry lies strictly below the subtree head
          by_cases hd' : d' = true
          case neg => rw [if_neg hd'] at hmem; cases hmem
          rw [if_pos hd'] at hmem
          obtain ⟨c', -, tail, hp⟩ := walkForest_path_shape (pref ++ [n']) cc _ hmem
          have hp' : pref ++ n :: rest = pref ++ n' :: c'.name :: tail := by
            simpa using hp
          have hcanc := List.append_cancel_left hp'
          injection hcanc with h1 h2
          rw [wfT_node_iff] at hcw
          rw [h1] at hmem
          have hmem' : Entry.mk ((pref ++ [n']) ++ rest) nm d ∈ walkForest (pref ++ [n']) cc := by
            simpa using hmem
          obtain ⟨hrne, hrall, u, hlk, hunm, hud⟩ :=
            (ih cc (pref ++ [n']) nm d hcw.2.2 hcw.2.1).mp hmem'
          have hfc : findChild cs n = some (FsTree.node n' d' cc) := by
            rw [h1]
            have := findChild_eq_of_mem cs (FsTree.node n' d' cc) hn hc
            simpa [FsTree.name] using this
          refine ⟨by simp, by simp [List.all_cons, h1, hf, hrall], u, ?_, hunm, hud⟩
          subst h2
          simp only [lookupF, hfc, FsTree.isDir, FsTree.children, hd', if_true]
          exact hlk
    · rintro ⟨-, hall, u, hlk, hunm, hud⟩
      simp only [List.all_cons, Bool.and_eq_true] at hall
      cases hfc : findChild cs n with
      | none => simp [lookupF, hfc] at hlk
      | some c =>
        have hcc := findChild_some cs n c hfc
        have hcw : wfT c = true := wfF_mem hw hcc.1
        cases c with
        | node cn cd ccc =>
          have hcn : cn = n := by simpa [FsTree.name] using hcc.2
          cases rest with
          | nil =>
            have hcu : u = FsTree.node cn cd ccc := by
              simp only [lookupF, hfc] at hlk
              exact (Option.some.inj hlk).symm
            apply (mem_walkForest pref cs _).mpr
            refine ⟨FsTree.node cn cd ccc, hcc.1, ?_⟩
            rw [walkTree_node_eq]
            rw [if_pos (by rw [hcn]; exact hall.1)]
            apply List.mem_cons.mpr
            left
            have h1 : nm = cn := by
              rw [hcu] at hunm
              simpa [FsTree.name] using hunm.symm
            have h2 : d = cd := by
              rw [hcu] at hud
              simpa [FsTree.isDir] using hud.symm
            simp [hcn, h1, h2]
          | cons r0 rs =>
            simp only [lookupF, hfc, FsTree.isDir, FsTree.children] at hlk
            by_cases hcd : cd = true
            case neg =>
              rw [if_neg (by simp [hcd])] at hlk
              cases hlk
            rw [if_pos (by simp [hcd])] at hlk
            rw [wfT_node_iff] at hcw
            have hin := (ih ccc (pref ++ [n]) nm d hcw.2.2 hcw.2.1).mpr
              ⟨by simp, by simpa using hall.2, u, hlk, hunm, hud⟩
            apply (mem_walkForest pref cs _).mpr
            refine ⟨FsTree.node cn cd ccc, hcc.1, ?_⟩
            rw [walkTree_node_eq]
            rw [if_pos (by rw [hcn]; exact hall.1)]
            apply List.mem_cons.mpr
            right
            rw [if_pos hcd, hcn]
            simpa using hin

mutual

/-- Below a well-formed node, the yielded entry paths are distinct. -/
theorem walkTree_paths_nodup (pref : List String) (t : FsTree) (hw : wfT t = true) :
    ((walkTree pref t).map Entry.path).Nodup := by
  cases t with
  | node n d cs =>
    rw [wfT_node_iff] at hw
    rw [walkTree_node_eq]
    by_cases hf : filterEntryPred n = true
    case neg => simp [hf]
    rw [if_pos hf, List.map_cons]
    apply List.nodup_cons.mpr
    constructor
    · intro hmem
      by_cases hd : d = true
      case neg => simp [hd] at hmem
      rw [if_pos hd] at hmem
      rcases List.mem_map.mp hmem with ⟨e, he, hpe⟩
      obtain ⟨c, -, tail, hp⟩ := walkForest_path_shape (pref ++ [n]) cs e he
      rw [hp] at hpe
      have hlen := congrArg List.length hpe
      simp [List.length_append] at hlen
    · by_cases hd : d = true
      · rw [if_pos hd]
        exact walkForest_paths_nodup (pref ++ [n]) cs hw.2.2 hw.2.1
      · simp [hd]
termination_by structural t

/-- Below a well-formed sibling list with distinct names, the yielded
entry paths are distinct. -/
theorem walkForest_paths_nodup (pref : List String) (cs : List FsTree)
    (hw : wfF cs = true) (hn : (cs.map FsTree.name).Nodup) :
    ((walkForest pref cs).map Entry.path).Nodup := by
  cases cs with
  | nil => simp
  | cons c cs =>
    rw [walkForest_cons_eq, List.map_append]
    rw [wfF_cons_eq, Bool.and_eq_true] at hw
    rw [List.map_cons, List.nodup_cons] at hn
    apply List.Nodup.append
    · exact walkTree_paths_nodup pref c hw.1
    · exact walkForest_paths_nodup pref cs hw.2 hn.2
    · intro p hp1 hp2
      rcases List.mem_map.mp hp1 with ⟨e1, he1, hpe1⟩
      rcases List.mem_map.mp hp2 with ⟨e2, he2, hpe2⟩
      obtain ⟨tail1, hsh1⟩ := walkTree_path_shape pref c e1 he1
      obtain ⟨c2, hc2, tail2, hsh2⟩ := walkForest_path_shape pref cs e2 he2
      rw [hsh1] at hpe1
      rw [hsh2] at hpe2
      have heq : pref ++ c.name :: tail1 = pref ++ c2.name :: tail2 := by
        rw [hpe1, hpe2]
      have h2 := List.append_cancel_left heq
      injection h2 with h2a h2b
      exact hn.1 (by rw [h2a]; exact List.mem_map_of_mem FsTree.name hc2)
termination_by structural cs

end

/-- The paths of all entries of a full walk are distinct. -/
theorem walkDir_paths_nodup (rootName : String) (t : FsTree) (hw : wfT t = true) :
    ((walkDir rootName t).map Entry.path).Nodup := by
  unfold walkDir
  by_cases hroot : filterEntryPred rootName = true
  case neg => simp [hroot]
  rw [if_pos hroot]
  by_cases hdir : t.isDir = true
  case neg => simp [hdir]
  rw [if_pos hdir, List.map_cons]
  apply List.nodup_cons.mpr
  constructor
  · intro hmem
    rcases List.mem_map.mp hmem with ⟨e, he, hpe⟩
    obtain ⟨c, -, tail, hp⟩ := walkForest_path_shape [] t.children e he
    rw [hp] at hpe
    simp at hpe
  · cases t with
    | node n d cs =>
      rw [wfT_node_iff] at hw
      exact walkForest_paths_nodup [] cs hw.2.2 hw.2.1

/-- Applying the repository filter and the parent map to a list of entries
with distinct paths, each ending in the entry's own name, yields distinct
parent paths: the key step of yield-exactly-once. -/
theorem gitFiltered_parents_nodup :
    ∀ l : List Entry,
      (l.map Entry.path).Nodup →
      (∀ e ∈ l, e.path ≠ [] → e.path.getLast? = some e.name) →
      ((l.filter gitDirP).filterMap gitParent).Nodup := by
  intro l
  induction l with
  | nil => intro _ _; simp
  | cons e l ih =>
    intro hnd hlast
    rw [List.map_cons, List.nodup_cons] at hnd
    have hlast' : ∀ e' ∈ l, e'.path ≠ [] → e'.path.getLast? = some e'.name :=
      fun e' he' => hlast e' (List.mem_cons_of_mem e he')
    by_cases hg : gitDirP e = true
    case neg =>
      simp only [List.filter_cons, hg, if_false, Bool.false_eq_true]
      exact ih hnd.2 hlast'
    simp only [List.filter_cons, hg, if_true]
    by_cases hnil : e.path = []
    · have hge : gitParent e = none := by simp [gitParent, hnil]
      rw [List.filterMap_cons, hge]
      exact ih hnd.2 hlast'
    · have hge : gitParent e = some e.path.dropLast := by
        simp [gitParent, List.isEmpty_iff, hnil]
      rw [List.filterMap_cons, hge]
      apply List.nodup_cons.mpr
      refine ⟨?_, ih hnd.2 hlast'⟩
      intro hmem
      rcases List.mem_filterMap.mp hmem with ⟨e', he', hpar⟩
      rcases List.mem_filter.mp he' with ⟨he'l, hg'⟩
      have hnil' : e'.path ≠ [] := by
        intro h0
        simp [gitParent, h0] at hpar
      have hpar' : e'.path.dropLast = e.path.dropLast := by
        simpa [gitParent, List.isEmpty_iff, hnil'] using hpar
      simp only [gitDirP, Bool.and_eq_true, beq_iff_eq] at hg hg'
      have hlg : e.path.getLast? = some ".git" := by
        rw [hlast e (List.mem_cons_self e l) hnil, hg.2]
      have hlg' : e'.path.getLast? = some ".git" := by
        rw [hlast' e' he'l hnil', hg'.2]
      have h1 : e.path.dropLast ++ [".git"] = e.path :=
        List.dropLast_append_getLast? ".git" (by simp [Option.mem_def, hlg])
      have h2 : e'.path.dropLast ++ [".git"] = e'.path :=
        List.dropLast_append_getLast? ".git" (by simp [Option.mem_def, hlg'])
      have hpp : e'.path = e.path := by rw [← h1, ← h2, hpar']
      exact hnd.1 (by rw [← hpp]; exact List.mem_map_of_mem Entry.path he'l)

/-- The discovered-path sequence of a well-formed tree has no
duplicates: no repository is yielded twice. -/
theorem discoveredPaths_nodup (rootName : String) (t : FsTree) (hw : wfT t = true) :
    (discoveredPaths rootName t).Nodup := by
  unfold discoveredPaths
  apply gitFiltered_parents_nodup
  · exact walkDir_paths_nodup rootName t hw
  · intro e he hne
    unfold walkDir at he
    by_cases hroot : filterEntryPred rootName = true
    case neg => rw [if_neg hroot] at he; cases he
    rw [if_pos hroot] at he
    rcases List.mem_cons.mp he with heq | hmem
    · exact absurd (by rw [heq]) hne
    · by_cases hdir : t.isDir = true
      case neg => rw [if_neg hdir] at hmem; cases hmem
      rw [if_pos hdir] at hmem
      exact walkForest_path_last [] t.children e hmem

/-- A node reached by `lookupF` below a well-formed sibling list is
well-formed. -/
theorem lookupF_wfT (p : List String) :
    ∀ (cs : List FsTree) (u : FsTree), wfF cs = true →
      lookupF cs p = some u → wfT u = true := by
  induction p with
  | nil => intro cs u _ h; simp [lookupF] at h
  | cons n rest ih =>
    intro cs u hw h
    cases hfc : findChild cs n with
    | none => simp [lookupF, hfc] at h
    | some c =>
      have hcw : wfT c = true := wfF_mem hw (findChild_some cs n c hfc).1
      cases rest with
      | nil =>
        simp only [lookupF, hfc] at h
        rw [← Option.some.inj h]
        exact hcw
      | cons r0 rs =>
        simp only [lookupF, hfc] at h
        by_cases hcd : c.isDir = true
        case neg => rw [if_neg (by simp [hcd])] at h; cases h
        rw [if_pos hcd] at h
        cases c with
        | node cn cd ccc =>
          rw [wfT_node_iff] at hcw
          exact ih ccc u hcw.2.2 h

/-- Extending a resolved path by one component looks the component up
among the resolved directory's children. -/
theorem lookupF_snoc (p : List String) :
    ∀ (cs : List FsTree) (u : FsTree) (x : String),
      lookupF cs p = some u → u.isDir = true →
      lookupF cs (p ++ [x]) = findChild u.children x := by
  induction p with
  | nil => intro cs u x h _; simp [lookupF] at h
  | cons n rest ih =>
    intro cs u x h hud
    cases hfc : findChild cs n with
    | none => simp [lookupF, hfc] at h
    | some c =>
      cases rest with
      | nil =>
        simp only [lookupF, hfc] at h
        have hcu : c = u := Option.some.inj h
        subst hcu
        simp only [List.cons_append, List.nil_append, lookupF, hfc]
        rw [if_pos hud]
        exact lookupF_singleton c.children x
      | cons r0 rs =>
        simp only [lookupF, hfc] at h
        by_cases hcd : c.isDir = true
        case neg => rw [if_neg (by simp [hcd])] at h; cases h
        rw [if_pos hcd] at h
        simp only [List.cons_append, lookupF, hfc]
        rw [if_pos hcd]
        exact ih c.children u x h hud

/-- The walker does descend into a `.git` directory: every child of a
reached `.git` directory that passes the `filter_entry` predicate is
itself visited. -/
theorem walkDir_descends_into_git (rootName : String) (t : FsTree) (hw : wfT t = true)
    (p : List String) (u c : FsTree)
    (hlk : lookupF t.children p = some u) (hgit : u.name = ".git")
    (hud : u.isDir = true) (hc : c ∈ u.children)
    (hcf : filterEntryPred c.name = true)
    (hroot : filterEntryPred rootName = true) (hdir : t.isDir = true)
    (hall : p.all filterEntryPred = true) :
    Entry.mk (p ++ [c.name]) c.name c.isDir ∈ walkDir rootName t := by
  cases t with
  | node n d cs =>
    rw [wfT_node_iff] at hw
    have huw : wfT u = true := lookupF_wfT p _ u hw.2.2 hlk
    have hfc : findChild u.children c.name = some c := by
      cases u with
      | node un ud ucc =>
        rw [wfT_node_iff] at huw
        exact findChild_eq_of_mem _ c huw.2.1 hc
    have hsnoc := lookupF_snoc p _ u c.name hlk hud
    have hmem := (mem_walkForest_iff_lookup (p ++ [c.name]) (FsTree.node n d cs).children
        [] c.name c.isDir hw.2.2 hw.2.1).mpr
      ⟨by simp, by simp [List.all_append, hall, hcf], c, by rw [hsnoc, hfc], rfl, rfl⟩
    unfold walkDir
    rw [if_pos hroot, if_pos hdir]
    exact List.mem_cons_of_mem _ (by simpa using hmem)

/-- Membership characterization of the discovered-path sequence: a path is
yielded exactly when the root passes `filter_entry`, the scan root is a
directory, a directory named `.git` sits at `p ++ [".git"]` in the tree,
and every component on the way (including those inside other `.git`
directories) passes `filter_entry`. -/
theorem mem_discoveredPaths_iff (rootName : String) (t : FsTree) (hw : wfT t = true)
    (p : List String) :
    p ∈ discoveredPaths rootName t ↔
      (filterEntryPred rootName = true ∧ t.isDir = true ∧
        (p ++ [".git"]).all filterEntryPred = true ∧
        ∃ u, lookupF t.children (p ++ [".git"]) = some u ∧
          u.name = ".git" ∧ u.isDir = true) := by
  unfold discoveredPaths walkDir
  by_cases hroot : filterEntryPred rootName = true
  case neg => simp [hroot]
  rw [if_pos hroot]
  by_cases hdir : t.isDir = true
  case neg =>
    rw [if_neg hdir]
    simp [List.filter_cons, gitDirP, Bool.and_eq_true, hdir]
  rw [if_pos hdir]
  constructor
  · intro hp
    rcases List.mem_filterMap.mp hp with ⟨e, he, hpar⟩
    rcases List.mem_filter.mp he with ⟨he2, hgit⟩
    rcases List.mem_cons.mp he2 with heq | hmem
    · rw [heq] at hpar
      simp [gitParent] at hpar
    · simp only [gitDirP, Bool.and_eq_true, beq_iff_eq] at hgit
      have hnil : e.path ≠ [] := by
        rcases walkForest_path_shape [] t.children e hmem with ⟨c, -, tail, hp'⟩
        rw [hp']
        simp
      have hpar' : e.path.dropLast = p := by
        simpa [gitParent, List.isEmpty_iff, hnil] using hpar
      have hlast : e.path.getLast? = some ".git" := by
        rw [walkForest_path_last [] t.children e hmem, hgit.2]
      have hrec : p ++ [".git"] = e.path := by
        rw [← hpar']
        exact List.dropLast_append_getLast? ".git" (by simp [Option.mem_def, hlast])
      have heq2 : e = Entry.mk ([] ++ (p ++ [".git"])) ".git" true := by
        cases e with
        | mk ep en ed =>
          simp only [List.nil_append]
          simp only at hrec
          rw [Entry.mk.injEq]
          exact ⟨hrec.symm, hgit.2, hgit.1⟩
      rw [heq2] at hmem
      cases t with
      | node n d cs =>
        rw [wfT_node_iff] at hw
        have hres := (mem_walkForest_iff_lookup (p ++ [".git"]) cs [] ".git" true
          hw.2.2 hw.2.1).mp (by simpa using hmem)
        exact ⟨hroot, hdir, hres.2.1, hres.2.2⟩
  · rintro ⟨-, -, hall, u, hlk, hunm, hud⟩
    cases t with
    | node n d cs =>
      rw [wfT_node_iff] at hw
      have hmem := (mem_walkForest_iff_lookup (p ++ [".git"]) cs [] ".git" true
        hw.2.2 hw.2.1).mpr ⟨by simp, hall, u, hlk, hunm, hud⟩
      apply List.mem_filterMap.mpr
      refine ⟨Entry.mk ([] ++ (p ++ [".git"])) ".git" true, ?_, ?_⟩
      · apply List.mem_filter.mpr
        exact ⟨List.mem_cons_of_mem _ hmem, by simp [gitDirP]⟩
      · simp [gitParent]

/-- C1: for every repository reaching the divergence step (HEAD is a named
branch, an upstream is configured, and the two commit identifiers
differ), `check_repo_status` returns `HasUnpushed` exactly when the
ahead-count is positive and `Clean` when it is zero; the behind-count
(arbitrary here) plays no role.  Proved for both copies of the
function. -/
theorem claim_C1_divergence_ahead_decides
    (repoPath : String) (repo : Repo) (hd : HeadRef) (nm : String)
    (br : LocalBranch) (up : UpstreamRef) (localOid remoteOid : Oid)
    (ahead behind : Nat)
    (hh : repo.head = .ok hd) (hb : hd.isBranch = true)
    (hs : hd.shorthand = some nm) (hfb : repo.findBranch nm = .ok br)
    (hu : br.upstream = .ok up) (hl : br.target = some localOid)
    (hr : up.target = some remoteOid) (hne : localOid ≠ remoteOid)
    (hab : repo.aheadBehind localOid remoteOid = .ok (ahead, behind)) :
    check_repo_status_lib repoPath (.ok repo)
        = (if ahead > 0 then .ok .HasUnpushed else .ok .Clean)
      ∧ check_repo_status_main repoPath (.ok repo)
        = (if ahead > 0 then .ok .HasUnpushed else .ok .Clean) := by
  constructor <;>
    simp [check_repo_status_lib, check_repo_status_main, hh, hb, hs, hfb, hu, hl, hr, hne, hab]

/-- C1 witness: the diverged repository (ahead 2, behind 7) is classified
`HasUnpushed` by both copies. -/
theorem claim_C1_witness :
    check_repo_status_lib "r" (.ok divergedRepo) = .ok .HasUnpushed
      ∧ check_repo_status_main "r" (.ok divergedRepo) = .ok .HasUnpushed := by
  have h := claim_C1_divergence_ahead_decides "r" divergedRepo
    { isBranch := true, shorthand := some "main" } "main" divergedBranch
    { target := some 9 } 5 9 2 7 rfl rfl rfl rfl rfl rfl rfl (by decide) rfl
  simpa using h

/-- C2: for every repository whose HEAD is a named branch with no upstream
configured (`Branch::upstream` reports libgit2's not-found code `-3`),
`check_repo_status` returns `HasUnpushed` — whatever the branch target
is, i.e. regardless of how many local commits exist.  Proved for both
copies. -/
theorem claim_C2_no_upstream_has_unpushed
    (repoPath : String) (repo : Repo) (hd : HeadRef) (nm : String)
    (br : LocalBranch) (msg : String)
    (hh : repo.head = .ok hd) (hb : hd.isBranch = true)
    (hs : hd.shorthand = some nm) (hfb : repo.findBranch nm = .ok br)
    (hu : br.upstream = .error ⟨-3, msg⟩) :
    check_repo_status_lib repoPath (.ok repo) = .ok .HasUnpushed
      ∧ check_repo_status_main repoPath (.ok repo) = .ok .HasUnpushed := by
  constructor <;>
    simp [check_repo_status_lib, check_repo_status_main, hh, hb, hs, hfb, hu]

/-- C2 witness: the no-upstream repository is classified `HasUnpushed` by
both copies. -/
theorem claim_C2_witness :
    check_repo_status_lib "r" (.ok noUpstreamRepo) = .ok .HasUnpushed
      ∧ check_repo_status_main "r" (.ok noUpstreamRepo) = .ok .HasUnpushed :=
  claim_C2_no_upstream_has_unpushed "r" noUpstreamRepo
    { isBranch := true, shorthand := some "main" } "main" noUpstreamBranch
    "no upstream configured" rfl rfl rfl rfl rfl

/-- C3: for every repository that opens successfully but whose HEAD does
not resolve, `check_repo_status` returns `Ok(MissingHead)` — a normal
status, never a classification error.  Proved for both copies. -/
theorem claim_C3_missing_head_is_ok
    (repoPath : String) (repo : Repo) (e : GitError)
    (hh : repo.head = .error e) :
    check_repo_status_lib repoPath (.ok repo) = .ok .MissingHead
      ∧ check_repo_status_main repoPath (.ok repo) = .ok .MissingHead := by
  constructor <;> simp [check_repo_status_lib, check_repo_status_main, hh]

/-- C3 witness: the zero-commit repository is classified `MissingHead` by
both copies. -/
theorem claim_C3_witness :
    check_repo_status_lib "r" (.ok unbornRepo) = .ok .MissingHead
      ∧ check_repo_status_main "r" (.ok unbornRepo) = .ok .MissingHead :=
  claim_C3_missing_head_is_ok "r" unbornRepo ⟨-9, "reference not found"⟩ rfl

/-- C7: for every repository whose HEAD resolves but is not a named branch
(detached state), `check_repo_status` returns `Clean`.  Proved for both
copies. -/
theorem claim_C7_detached_is_clean
    (repoPath : String) (repo : Repo) (hd : HeadRef)
    (hh : repo.head = .ok hd) (hb : hd.isBranch = false) :
    check_repo_status_lib repoPath (.ok repo) = .ok .Clean
      ∧ check_repo_status_main repoPath (.ok repo) = .ok .Clean := by
  constructor <;> simp [check_repo_status_lib, check_repo_status_main, hh, hb]

/-- C7 witness: the detached-HEAD repository is classified `Clean` by both
copies. -/
theorem claim_C7_witness :
    check_repo_status_lib "r" (.ok detachedRepo) = .ok .Clean
      ∧ check_repo_status_main "r" (.ok detachedRepo) = .ok .Clean :=
  claim_C7_detached_is_clean "r" detachedRepo
    { isBranch := false, shorthand := some "HEAD" } rfl rfl

/-- C9: once HEAD resolves to a named branch that is found locally, ANY
failure of the upstream-resolution call — whatever its error code and
message — makes `check_repo_status` return `Ok(HasUnpushed)`; no
upstream-resolution failure can produce a classification error from this
point.  Proved for both copies. -/
theorem claim_C9_any_upstream_failure_has_unpushed
    (repoPath : String) (repo : Repo) (hd : HeadRef) (nm : String)
    (br : LocalBranch) (e : GitError)
    (hh : repo.head = .ok hd) (hb : hd.isBranch = true)
    (hs : hd.shorthand = some nm) (hfb : repo.findBranch nm = .ok br)
    (hu : br.upstream = .error e) :
    check_repo_status_lib repoPath (.ok repo) = .ok .HasUnpushed
      ∧ check_repo_status_main repoPath (.ok repo) = .ok .HasUnpushed := by
  constructor <;>
    simp [check_repo_status_lib, check_repo_status_main, hh, hb, hs, hfb, hu]

/-- C9 witness: a generic (non not-found) upstream failure still yields
`HasUnpushed` from both copies. -/
theorem claim_C9_witness :
    check_repo_status_lib "r" (.ok upstreamFailRepo) = .ok .HasUnpushed
      ∧ check_repo_status_main "r" (.ok upstreamFailRepo) = .ok .HasUnpushed :=
  claim_C9_any_upstream_failure_has_unpushed "r" upstreamFailRepo
    { isBranch := true, shorthand := some "dev" } "dev" upstreamFailBranch
    ⟨-1, "generic upstream failure"⟩ rfl rfl rfl rfl rfl

/-- C10: the public `check_repo_status` of `lib.rs` and the private copy
in `main.rs` compute the same function: on every input they return the
same status on success and an error exactly when the other errors
(`Except.toOption` forgets only the error message, which is the one
point where the two copies' open-failure context strings differ). -/
theorem claim_C10_lib_main_same_function
    (repoPath : String) (opened : Except GitError Repo) :
    (check_repo_status_lib repoPath opened).toOption
      = (check_repo_status_main repoPath opened).toOption := by
  cases opened with
  | error e => rfl
  | ok repo =>
    cases hh : repo.head with
    | error e => simp [check_repo_status_lib, check_repo_status_main, hh]
    | ok hd =>
      cases hb : hd.isBranch with
      | false => simp [check_repo_status_lib, check_repo_status_main, hh, hb]
      | true =>
        cases hs : hd.shorthand with
        | none => simp [check_repo_status_lib, check_repo_status_main, hh, hb, hs]
        | some nm =>
          cases hfb : repo.findBranch nm with
          | error e => simp [check_repo_status_lib, check_repo_status_main, hh, hb, hs, hfb]
          | ok br =>
            cases hu : br.upstream with
            | error e =>
              simp [check_repo_status_lib, check_repo_status_main, hh, hb, hs, hfb, hu]
            | ok up =>
              cases hl : br.target with
              | none =>
                simp [check_repo_status_lib, check_repo_status_main, hh, hb, hs, hfb, hu, hl]
              | some lo =>
                cases hr : up.target with
                | none =>
                  simp [check_repo_status_lib, check_repo_status_main,
                    hh, hb, hs, hfb, hu, hl, hr]
                | some ro =>
                  by_cases hbe : lo = ro
                  · simp [check_repo_status_lib, check_repo_status_main,
                      hh, hb, hs, hfb, hu, hl, hr, hbe]
                  · cases hab : repo.aheadBehind lo ro with
                    | error e =>
                      simp [check_repo_status_lib, check_repo_status_main,
                        hh, hb, hs, hfb, hu, hl, hr, hbe, hab]
                    | ok p =>
                      cases p with
                      | mk a b =>
                        simp [check_repo_status_lib, check_repo_status_main,
                          hh, hb, hs, hfb, hu, hl, hr, hbe, hab]

/-- C8: once scanning begins, a classification error for one repository is
logged as a warning, contributes nothing to standard output, leaves every
other repository's output unchanged, and the exit code is 0 — as it is
for every scan, including one where zero repositories match. -/
theorem claim_C8_per_repo_errors_isolated
    (mode : Bool) (pre post : List (String × Except GitError Repo))
    (badPath : String) (badOpened : Except GitError Repo) (e : String)
    (hbad : check_repo_status_main badPath badOpened = .error e) :
    (runScan mode (pre ++ (badPath, badOpened) :: post)).1 = (runScan mode (pre ++ post)).1
      ∧ LogEvent.warnFailed badPath e ∈ (runScan mode (pre ++ (badPath, badOpened) :: post)).2.1
      ∧ (runScan mode (pre ++ (badPath, badOpened) :: post)).2.2 = 0
      ∧ ∀ repos, (runScan mode repos).2.2 = 0 := by
  refine ⟨?_, ?_, rfl, fun _ => rfl⟩
  · simp [runScan, processRepo, hbad]
  · simp [runScan, processRepo, hbad]

/-- C8 witness: a repository that fails to open is only logged; the clean
repository scanned alongside it is unaffected and the exit code is 0. -/
theorem claim_C8_witness :
    (runScan false ([] ++ ("p", Except.error ⟨-1, "cannot open"⟩) :: [("q", .ok detachedRepo)])).1
        = (runScan false ([] ++ [("q", .ok detachedRepo)])).1
      ∧ LogEvent.warnFailed "p" "Failed to open repository at \"p\""
          ∈ (runScan false
              ([] ++ ("p", Except.error ⟨-1, "cannot open"⟩) :: [("q", .ok detachedRepo)])).2.1
      ∧ (runScan false
          ([] ++ ("p", Except.error ⟨-1, "cannot open"⟩) :: [("q", .ok detachedRepo)])).2.2 = 0
      ∧ ∀ repos, (runScan false repos).2.2 = 0 :=
  claim_C8_per_repo_errors_isolated false [] [("q", .ok detachedRepo)] "p"
    (Except.error ⟨-1, "cannot open"⟩) "Failed to open repository at \"p\"" rfl

/-- C4 counterexample: the walker DOES descend into a repository's `.git`
directory.  In a tree `project/.git/modules/x/.git` (as git lays out
submodule state) the walk visits `project/.git/modules` — an entry inside
the metadata directory — and even yields `project/.git/modules/x` as a
discovered repository path, contradicting the claim that the walker never
descends into the metadata directory's contents. -/
theorem claim_C4_counterexample :
    Entry.mk ["project", ".git", "modules"] "modules" true ∈ walkDir "root" nestedGitTree
      ∧ ["project", ".git", "modules", "x"] ∈ discoveredPaths "root" nestedGitTree := by
  constructor
  · decide
  · decide

/-- C4 amended: over every well-formed tree, (1) the discovered-path
sequence has no duplicates, (2) a path is discovered exactly when a
directory named `.git` sits below it and every component on the way
passes the `filter_entry` predicate — so each `.git`-containing,
unpruned directory is yielded exactly once — and (3) the walker does
descend into a `.git` directory's contents: every `filter_entry`-passing
child of a visited `.git` directory is itself visited. -/
theorem claim_C4_walk_yield_once_and_descent (rootName : String) (t : FsTree)
    (hw : wfT t = true) :
    (discoveredPaths rootName t).Nodup
      ∧ (∀ p : List String,
          p ∈ discoveredPaths rootName t ↔
            (filterEntryPred rootName = true ∧ t.isDir = true ∧
              (p ++ [".git"]).all filterEntryPred = true ∧
              ∃ u, lookupF t.children (p ++ [".git"]) = some u ∧
                u.name = ".git" ∧ u.isDir = true))
      ∧ (∀ (p : List String) (u c : FsTree),
          lookupF t.children p = some u → u.name = ".git" → u.isDir = true →
          c ∈ u.children → filterEntryPred c.name = true →
          filterEntryPred rootName = true → t.isDir = true →
          p.all filterEntryPred = true →
          Entry.mk (p ++ [c.name]) c.name c.isDir ∈ walkDir rootName t) :=
  ⟨discoveredPaths_nodup rootName t hw,
   mem_discoveredPaths_iff rootName t hw,
   fun p u c h1 h2 h3 h4 h5 h6 h7 h8 =>
     walkDir_descends_into_git rootName t hw p u c h1 h2 h3 h4 h5 h6 h7 h8⟩

/-- C4 witness: on a concrete well-formed tree the discovered paths are
duplicate-free, `project` (which holds a `.git`) is discovered, and the
walker visits `objects` inside `project/.git`. -/
theorem claim_C4_witness :
    (discoveredPaths "root" witnessTree).Nodup
      ∧ ["project"] ∈ discoveredPaths "root" witnessTree
      ∧ Entry.mk ["project", ".git", "objects"] "objects" true ∈ walkDir "root" witnessTree := by
  have h := claim_C4_walk_yield_once_and_descent "root" witnessTree (by decide)
  refine ⟨h.1, ?_, ?_⟩
  · exact (h.2.1 ["project"]).mpr
      ⟨by decide, rfl, by decide,
        FsTree.node ".git" true [FsTree.node "objects" true []], rfl, rfl, rfl⟩
  · exact h.2.2 ["project", ".git"]
      (FsTree.node ".git" true [FsTree.node "objects" true []])
      (FsTree.node "objects" true []) rfl rfl rfl (List.mem_cons_self _ _)
      (by decide) (by decide) rfl (by decide)

/-- C5 counterexample: the `Args` struct accepts no `exclude-from`
option, so no ignore-pattern file can be supplied; and on the spec's own
scenario (`project/.git` and `project/vendor/.git` with `vendor/` meant
to be excluded) the walk yields `project/vendor` anyway — the claimed
exclusion does not exist in the code. -/
theorem claim_C5_counterexample :
    argsLongOptions.contains "exclude-from" = false
      ∧ ["project", "vendor"] ∈ discoveredPaths "root" scenario6Tree := by
  constructor
  · decide
  · decide

/-- C5 amended: the program accepts no `--exclude-from` flag and the walk
applies no ignore-pattern exclusion; its only pruning is the hidden-name
rule, so in the spec's scenario 6 both `project` and `project/vendor`
are discovered. -/
theorem claim_C5_no_pattern_exclusion :
    argsLongOptions.contains "exclude-from" = false
      ∧ discoveredPaths "root" scenario6Tree = [["project"], ["project", "vendor"]] := by
  constructor
  · decide
  · decide

/-- C6: the `filter_entry` predicate is applied to the scan root entry as
well, and the code's root special-cases cover only the names `.`, `..`,
`./...` and `../...`.  A scan root whose own name starts with `.` (here
`.hidden`) is therefore pruned: the walk yields no entries at all and no
repository is discovered — although the identical contents under a
non-dot root name are discovered.  This contradicts the claim (and the
code's own comment) that the root is never excluded. -/
theorem claim_C6_dot_named_root_is_pruned :
    filterEntryPred ".hidden" = false
      ∧ walkDir ".hidden" dotRootTree = []
      ∧ discoveredPaths ".hidden" dotRootTree = []
      ∧ discoveredPaths "work" (FsTree.node "work" true dotRootTree.children)
          = [["project"]] := by
  refine ⟨by decide, by decide, by decide, by decide⟩
